import Mathlib

/-!
Verification of the backyard_bird_cam ingest-store-serve pipeline.

Shallow embedding of the core components from the source:
* `nano_inference_server/storage/result_storage.py` (`ResultStorage`)
* `nano_inference_server/api/server.py` (`APIServer`)
* `nano_inference_server/monitoring/directory_monitor.py` (`DirectoryMonitor`)
-/

set_option maxHeartbeats 1000000

namespace BirdCam

/-! ## Result store index model (result_storage.py)

The SQLite `detections` table is modelled as a list of rows in insertion
order.  `id` is the AUTOINCREMENT primary key (modelled by `nextId`),
`timestamp` the eviction sort key.  The filesystem is modelled as the list
of file paths currently existing. -/

structure IndexRow where
  rid : Nat
  timestamp : Nat
  image_path : String
  annotated_path : String
  result_path : String
  deriving Repr, DecidableEq

/-- Insertion step for sorting a list ascending by a `Nat`-valued key. -/
def insertByKey {α : Type} (key : α → Nat) (r : α) : List α → List α
  | [] => [r]
  | x :: xs => if key r ≤ key x then r :: x :: xs else x :: insertByKey key r xs

/-- Sorting by a `Nat`-valued key, ascending. -/
def sortByKey {α : Type} (key : α → Nat) (l : List α) : List α :=
  l.foldr (insertByKey key) []

/-- Embeds the SQL `SELECT ... FROM detections ORDER BY timestamp ASC`. -/
def sortByTs (l : List IndexRow) : List IndexRow := sortByKey IndexRow.timestamp l

/-- The three side-car files of a row (image, annotated, JSON document). -/
def rowFiles (r : IndexRow) : List String := [r.image_path, r.annotated_path, r.result_path]

structure StoreState where
  rows : List IndexRow
  files : List String
  nextId : Nat
  deriving Repr

def initStore : StoreState := ⟨[], [], 0⟩

/-- Embeds `ResultStorage._cleanup_old_results` (result_storage.py lines 264-309):
if the row count exceeds `maxResults`, select the oldest `count - maxResults`
rows by timestamp, attempt to delete each row's three files (a failed file
deletion, modelled by `deleteOk` returning `false`, is only logged), then
delete each selected row from the index (`DELETE FROM detections WHERE id = ?`). -/
def cleanup_old_results (maxResults : Nat) (deleteOk : String → Bool) (st : StoreState) : StoreState :=
  let count := st.rows.length
  if maxResults < count then
    let toDelete := count - maxResults
    let old := (sortByTs st.rows).take toDelete
    let doomed := (old.map rowFiles).flatten
    let files2 := st.files.filter (fun f => !(doomed.contains f && deleteOk f))
    let rows2 := old.foldl (fun rs r => rs.filter (fun x => x.rid ≠ r.rid)) st.rows
    { rows := rows2, files := files2, nextId := st.nextId }
  else st

/-- One `save_result` call's index-relevant inputs: the generated timestamp and
the three computed storage paths. -/
structure SaveInput where
  ts : Nat
  img : String
  ann : String
  res : String
  deriving Repr, DecidableEq

def rowOf (rid : Nat) (i : SaveInput) : IndexRow :=
  ⟨rid, i.ts, i.img, i.ann, i.res⟩

/-- Embeds the index-state effect of `ResultStorage.save_result`
(result_storage.py lines 203-211): write the side-car files, insert the row
(`_save_to_database`), then run `_cleanup_old_results`. -/
def save_result_index (maxResults : Nat) (deleteOk : String → Bool)
    (i : SaveInput) (st : StoreState) : StoreState :=
  cleanup_old_results maxResults deleteOk
    { rows := st.rows ++ [rowOf st.nextId i],
      files := st.files ++ rowFiles (rowOf st.nextId i),
      nextId := st.nextId + 1 }

/-- A sequence of `save_result` calls. -/
def runSaves (maxResults : Nat) (deleteOk : String → Bool)
    (st : StoreState) (is_ : List SaveInput) : StoreState :=
  is_.foldl (fun s i => save_result_index maxResults deleteOk i s) st

/-- The rows a sequence of saves would produce if no eviction ever ran,
with ids assigned consecutively from `start`. -/
def mkRows (start : Nat) : List SaveInput → List IndexRow
  | [] => []
  | i :: rest => rowOf start i :: mkRows (start + 1) rest

/-- Strict ordering used for save histories: later rows have strictly larger
timestamps and strictly larger ids. -/
def rowLt (a b : IndexRow) : Prop := a.timestamp < b.timestamp ∧ a.rid < b.rid

def demoSaves : List SaveInput :=
  [⟨1, "img1.jpg", "ann1.jpg", "res1.json"⟩,
   ⟨2, "img2.jpg", "ann2.jpg", "res2.json"⟩,
   ⟨3, "img3.jpg", "ann3.jpg", "res3.json"⟩]


/-! ## Full save/get model (result_storage.py lines 133-262 and 359-398)

This refines the index model with the content of each row and the JSON
result documents, so that `save_result`'s returned dictionary and
`get_result_by_id`'s merged result can be stated. -/

/-- One detection dictionary.  The fields model the optional dictionary
keys that `save_result` checks (`"class_name" in detection`,
`"confidence" in detection`). -/
structure Detection where
  class_name : Option String
  confidence : Option ℚ
  deriving Repr, DecidableEq

/-- Embeds the species extraction of `save_result` (lines 174-179): class
names of detections carrying a `class_name` key other than the generic
`"bird"`, in detection order, duplicates included. -/
def species_list (detections : List Detection) : List String :=
  detections.filterMap (fun d =>
    match d.class_name with
    | some c => if c ≠ "bird" then some c else none
    | none => none)

/-- Embeds the confidence maximum of `save_result` (lines 175-182):
starting from `0.0`, each detection carrying a `confidence` key strictly
greater than the running maximum replaces it. -/
def max_confidence (detections : List Detection) : ℚ :=
  detections.foldl (fun m d =>
    match d.confidence with
    | some c => if m < c then c else m
    | none => m) 0

/-- The `result_data` dictionary built by `save_result` (lines 188-201).
`rid` models the presence of an `"id"` key in that dictionary:
`save_result` never puts one in, so every dictionary it builds has
`rid = none`.  The `species` string joins the de-duplicated class names;
Python iterates a `set` in unspecified order, modelled here by the
canonical `List.dedup` order (every claim about it is order-insensitive). -/
structure ResultData where
  timestamp : Nat
  image_path : String
  annotated_path : String
  result_path : String
  bird_detected : Bool
  bird_count : Nat
  has_species : Bool
  species : String
  confidence : ℚ
  detections : List Detection
  rid : Option Nat
  deriving Repr, DecidableEq

def mkResultData (ts : Nat) (stored ann res : String) (detections : List Detection) :
    ResultData :=
  { timestamp := ts
    image_path := stored
    annotated_path := ann
    result_path := res
    bird_detected := decide (0 < detections.length)
    bird_count := detections.length
    has_species := decide (0 < (species_list detections).length)
    species := String.intercalate ", " (species_list detections).dedup
    confidence := max_confidence detections
    detections := detections
    rid := none }

/-- A row of the SQLite `detections` table with its column values, as
inserted by `_save_to_database` (lines 224-262).  `rid` is the
AUTOINCREMENT primary key. -/
structure DBRow where
  rid : Nat
  timestamp : Nat
  image_path : String
  annotated_path : String
  result_path : String
  bird_detected : Bool
  bird_count : Nat
  has_species : Bool
  species : String
  confidence : ℚ
  deriving Repr, DecidableEq

def rowOfData (rid : Nat) (rd : ResultData) : DBRow :=
  { rid := rid, timestamp := rd.timestamp, image_path := rd.image_path,
    annotated_path := rd.annotated_path, result_path := rd.result_path,
    bird_detected := rd.bird_detected, bird_count := rd.bird_count,
    has_species := rd.has_species, species := rd.species,
    confidence := rd.confidence }

/-- Store state: the indexed rows, the JSON documents on disk keyed by
their `result_path`, and the next AUTOINCREMENT id. -/
structure DocStore where
  rows : List DBRow
  docs : List (String × ResultData)
  nextId : Nat
  deriving Repr, DecidableEq

def initDocStore : DocStore := ⟨[], [], 0⟩

/-- Embeds `_cleanup_old_results` over this refined state: the same
eviction sweep as `cleanup_old_results`, additionally deleting the evicted
rows' JSON documents from disk when the file deletion succeeds
(`deleteOk`). -/
def cleanup_docs (maxResults : Nat) (deleteOk : String → Bool) (st : DocStore) : DocStore :=
  if maxResults < st.rows.length then
    let old := (sortByKey DBRow.timestamp st.rows).take (st.rows.length - maxResults)
    { rows := old.foldl (fun rs r => rs.filter (fun x => x.rid ≠ r.rid)) st.rows,
      docs := st.docs.filter (fun p =>
        !(old.any (fun r => r.result_path = p.1) && deleteOk p.1)),
      nextId := st.nextId }
  else st

/-- What `save_result` returns: either the `result_data` dictionary, or —
when an internal exception was caught — the minimal error dictionary
`{"timestamp": ..., "error": ..., "image_path": <as supplied>}`
(lines 215-222). -/
inductive SaveOutcome where
  | ok (rd : ResultData)
  | err (timestamp : Nat) (msg : String) (image_path : String)
  deriving Repr, DecidableEq

/-- Embeds `ResultStorage.save_result` (lines 133-222).
`srcExists` models `os.path.exists(image_path)`; `copyOk` models whether
`shutil.copy2` succeeds.  A raised copy error propagates to the
function-wide `except`, which returns the minimal error dictionary and
leaves the store untouched.  Otherwise the JSON document is written, the
row inserted (`_save_to_database`), and `_cleanup_old_results` runs.
`ts` is the generated timestamp and `stored`/`ann`/`res` the three paths
computed by `_get_paths`. -/
def save_result (maxResults : Nat) (deleteOk : String → Bool)
    (srcExists copyOk copy_original : Bool)
    (ts : Nat) (image_path stored ann res : String)
    (detections : List Detection) (st : DocStore) : SaveOutcome × DocStore :=
  if copy_original && srcExists && !copyOk then
    (.err ts "copy failed" image_path, st)
  else
    let rd := mkResultData ts stored ann res detections
    (.ok rd,
      cleanup_docs maxResults deleteOk
        { rows := st.rows ++ [rowOfData st.nextId rd],
          docs := st.docs ++ [(res, rd)],
          nextId := st.nextId + 1 })

/-- The merged dictionary returned by `get_result_by_id`: the database row
is merged over the loaded JSON document (`full_result.update(result)`), so
database columns win on every shared field and the document alone
contributes `detections`.  When the document is missing or unreadable only
the database columns are present (`detections = none`). -/
structure FetchedResult where
  rid : Nat
  timestamp : Nat
  image_path : String
  annotated_path : String
  result_path : String
  bird_detected : Bool
  bird_count : Nat
  has_species : Bool
  species : String
  confidence : ℚ
  detections : Option (List Detection)
  deriving Repr, DecidableEq

def mergeRow (row : DBRow) (doc : Option ResultData) : FetchedResult :=
  { rid := row.rid, timestamp := row.timestamp, image_path := row.image_path,
    annotated_path := row.annotated_path, result_path := row.result_path,
    bird_detected := row.bird_detected, bird_count := row.bird_count,
    has_species := row.has_species, species := row.species,
    confidence := row.confidence,
    detections := doc.map (fun d => d.detections) }

/-- Look up a JSON document on disk by path (`os.path.exists` + `json.load`). -/
def lookupDoc (docs : List (String × ResultData)) (path : String) : Option ResultData :=
  (docs.find? (fun p => p.1 = path)).map (fun p => p.2)

/-- Embeds `ResultStorage.get_result_by_id` (lines 359-398): look the row up
by primary key; on a hit, best-effort enrich it from the JSON document
(`docLoadOk` models whether the document file exists and parses — a failed
load only logs a warning and returns the row fields alone); on a miss
return `None`. -/
def get_result_by_id (docLoadOk : Bool) (result_id : Nat) (st : DocStore) :
    Option FetchedResult :=
  match st.rows.find? (fun r => r.rid = result_id) with
  | none => none
  | some row =>
      if docLoadOk then some (mergeRow row (lookupDoc st.docs row.result_path))
      else some (mergeRow row none)


/-- Running-maximum fold, the shape of `save_result`'s confidence loop. -/
def foldMax (l : List ℚ) (m : ℚ) : ℚ :=
  l.foldl (fun acc c => if acc < c then c else acc) m

/-- Two concrete detections: one identified species, one generic `"bird"`. -/
def demoDets : List Detection :=
  [⟨some "robin", some (1/2)⟩, ⟨some "bird", some (3/4)⟩]

/-! ## Recent-results query and API listing route
(result_storage.py lines 311-357, server.py lines 193-242) -/

/-- Embeds `ResultStorage.get_recent_results` (result_storage.py lines
311-357): optionally filter by `bird_detected = 1` / `has_species = 1`,
order by `timestamp` descending, and pass the caller's `limit` straight to
the SQL `LIMIT` clause — the function applies no clamping of its own.  A
negative `LIMIT` means "no limit" in SQLite. -/
def get_recent_results (limit : Int) (bird_only with_species : Bool)
    (rows : List DBRow) : List DBRow :=
  let filtered := rows.filter (fun r =>
    (!bird_only || r.bird_detected) && (!with_species || r.has_species))
  let ordered := (sortByKey DBRow.timestamp filtered).reverse
  if limit < 0 then ordered else ordered.take limit.toNat

/-- Embeds the limit/offset handling of `APIServer._handle_results`
(server.py lines 196-217): a `limit` outside `(0, 100]` becomes 20, a
negative `offset` becomes 0; the handler fetches `limit + offset` recent
rows and returns the slice `results[offset : offset + limit]`. -/
def handle_results (limit offset : Int) (bird_only with_species : Bool)
    (rows : List DBRow) : List DBRow :=
  let l := if limit ≤ 0 || 100 < limit then 20 else limit
  let o := if offset < 0 then 0 else offset
  let results := get_recent_results (l + o) bird_only with_species rows
  (results.drop o.toNat).take l.toNat

/-- A store of 150 rows, timestamps ascending, no birds. -/
def wideRows : List DBRow :=
  (List.range 150).map (fun i =>
    { rid := i, timestamp := i, image_path := "", annotated_path := "",
      result_path := "", bird_detected := false, bird_count := 0,
      has_species := false, species := "", confidence := 0 })

/-! ## Rate limiter and auth decorator (server.py lines 127-170) -/

/-- Embeds `APIServer._rate_limit_check` (server.py lines 127-150).
`rateLimit` is the `rate_limit` config entry: `none` models an absent or
`None` value and a configured `0` is `some 0`; both are falsy in Python,
so `if not self.config.get("rate_limit"): return True` passes without
touching any state.  `counts` is `self.request_counts` as a total map
(unseen clients map to `[]`, matching the `client_ip not in ...`
initialisation), `ip` the client key (`request.remote_addr`), `now` the
current time in seconds.  Timestamps at most 60 seconds old are kept
(`t > current_time - 60`), the pruned list is stored back, the request is
rejected when the pruned list already holds `rate_limit` entries, and the
current time is recorded otherwise. -/
def rate_limit_check (rateLimit : Option Nat) (counts : String → List ℚ)
    (ip : String) (now : ℚ) : Bool × (String → List ℚ) :=
  match rateLimit with
  | none => (true, counts)
  | some n =>
      if n = 0 then (true, counts)
      else if n ≤ ((counts ip).filter (fun t => now - 60 < t)).length then
        (false, Function.update counts ip ((counts ip).filter (fun t => now - 60 < t)))
      else
        (true, Function.update counts ip ((counts ip).filter (fun t => now - 60 < t) ++ [now]))

/-- An HTTP response: body and status code. -/
structure Resp where
  body : String
  code : Nat
  deriving Repr, DecidableEq

/-- Embeds `APIServer._auth_required` (server.py lines 152-170): the
decorated route first runs the rate-limit check and answers 429 before any
other handler logic when it fails; then, when an `access_key` is
configured, a missing or mismatched API key yields 401; otherwise the
wrapped handler runs. -/
def auth_required (rateLimit : Option Nat) (accessKey : Option String)
    (counts : String → List ℚ) (ip : String) (now : ℚ)
    (apiKey : Option String) (handler : Unit → Resp) : Resp × (String → List ℚ) :=
  match rate_limit_check rateLimit counts ip now with
  | (false, counts2) => (⟨"Rate limit exceeded", 429⟩, counts2)
  | (true, counts2) =>
      match accessKey with
      | none => (handler (), counts2)
      | some key =>
          match apiKey with
          | none => (⟨"Unauthorized", 401⟩, counts2)
          | some k =>
              if k = key then (handler (), counts2) else (⟨"Unauthorized", 401⟩, counts2)

/-- Run a sequence of requests `(ip, time)` through the rate-limit check,
threading the map and collecting each verdict. -/
def run_requests (rl : Option Nat) :
    List (String × ℚ) → (String → List ℚ) → (String → List ℚ) × List Bool
  | [], counts => (counts, [])
  | req :: rest, counts =>
      ((run_requests rl rest (rate_limit_check rl counts req.1 req.2).2).1,
        (rate_limit_check rl counts req.1 req.2).1 ::
          (run_requests rl rest (rate_limit_check rl counts req.1 req.2).2).2)

/-- The first `k` requests of one client, the `i`-th at time `ts i`. -/
def clientReqs (ip : String) (ts : Nat → ℚ) (k : Nat) : List (String × ℚ) :=
  (List.range k).map (fun i => (ip, ts i))

/-! ## Directory monitor queue (directory_monitor.py lines 90-91) -/

/-- Python `queue.Queue` with capacity `maxsize`; `maxsize = 0` means
unbounded. -/
structure PyQueue (α : Type) where
  maxsize : Nat
  items : List α
  deriving Repr, DecidableEq

/-- Result of `Queue.put` (default blocking mode): the put blocks the
calling thread exactly when the queue is bounded (`0 < maxsize`) and full;
otherwise the item is appended. -/
inductive PutResult (α : Type) where
  | enqueued (q : PyQueue α)
  | blocked
  deriving Repr, DecidableEq

def PyQueue.put {α : Type} (q : PyQueue α) (x : α) : PutResult α :=
  if 0 < q.maxsize ∧ q.maxsize ≤ q.items.length then .blocked
  else .enqueued ⟨q.maxsize, q.items ++ [x]⟩

/-- Iterate `put`; `none` when some put blocked. -/
def putAll {α : Type} (q : PyQueue α) : List α → Option (PyQueue α)
  | [] => some q
  | x :: rest =>
      match q.put x with
      | .enqueued q2 => putAll q2 rest
      | .blocked => none

/-- Embeds `DirectoryMonitor.__init__` (directory_monitor.py lines 90-91):
`self.queue = Queue() if use_queue else None`.  The `Queue()` call passes
no `maxsize`, whose Python default is `0`: the work queue is created
unbounded. -/
def directory_monitor_queue (use_queue : Bool) : Option (PyQueue String) :=
  if use_queue then some ⟨0, []⟩ else none

/-! ## Guarded store reads (result_storage.py lines 311-524)

Every read of `ResultStorage` wraps its database interaction in
`try/except`; the interaction's outcome is modelled explicitly. -/

/-- Outcome of the database interaction inside a read: the value it
produced, or the message of a raised exception. -/
inductive DBOutcome (α : Type) where
  | ok (val : α)
  | raised (msg : String)
  deriving Repr

/-- Embeds the try/except shell of `get_recent_results` (lines 325-357):
on any exception the function logs the error and returns `[]`. -/
def get_recent_results_guarded (limit : Int) (bird_only with_species : Bool)
    (db : DBOutcome (List DBRow)) : List DBRow :=
  match db with
  | .ok rows => get_recent_results limit bird_only with_species rows
  | .raised _ => []

/-- Embeds the try/except shell of `get_result_by_id` (lines 369-398):
`None` on any exception; on success the lookup of `get_result_by_id`
(which itself returns `None` only for an unknown id, and falls back to
row-only fields when the document cannot be loaded). -/
def get_result_by_id_guarded (docLoadOk : Bool) (result_id : Nat)
    (db : DBOutcome DocStore) : Option FetchedResult :=
  match db with
  | .ok st => get_result_by_id docLoadOk result_id st
  | .raised _ => none

/-- Embeds the try/except shell of `search_results` (lines 421-465): the
conjunctive SQL query's fetched rows on success, `[]` on any exception. -/
def search_results_guarded (db : DBOutcome (List DBRow)) : List DBRow :=
  match db with
  | .ok rows => rows
  | .raised _ => []

/-- The statistics dictionary assembled by `get_stats` (lines 474-520). -/
structure StatsDict where
  total_detections : Nat
  bird_detections : Nat
  species_identified : Nat
  average_confidence : ℚ
  deriving Repr, DecidableEq

/-- Embeds the try/except shell of `get_stats` (lines 474-524): the stats
dictionary on success, a dictionary carrying only an `"error"` key
(modelled by the right summand) on any exception. -/
def get_stats_guarded (db : DBOutcome StatsDict) : StatsDict ⊕ String :=
  match db with
  | .ok s => Sum.inl s
  | .raised e => Sum.inr e

/-! ## Path sanitizer (server.py lines 172-188, serving lines 408-441)

Paths are modelled as lists of characters (POSIX, `/` separator). -/

/-- Embeds `re.sub(r'\.\.', '_', s)`: scan left to right, replacing each
non-overlapping occurrence of two consecutive dots by one underscore. -/
def subDots : List Char → List Char
  | [] => []
  | [c] => [c]
  | a :: b :: rest =>
      if a = '.' ∧ b = '.' then '_' :: subDots rest
      else a :: subDots (b :: rest)

/-- Whether the string contains two consecutive dots. -/
def hasDD : List Char → Bool
  | [] => false
  | [_] => false
  | a :: b :: rest => (a = '.' && b = '.') || hasDD (b :: rest)

/-- Embeds `os.path.basename` (POSIX): everything after the last `/`. -/
def basenameChars (l : List Char) : List Char :=
  (l.reverse.takeWhile (fun c => c ≠ '/')).reverse

/-- Embeds `os.path.dirname` (POSIX): everything up to the last `/`, with
trailing slashes stripped unless the result consists only of slashes. -/
def dirnameChars (l : List Char) : List Char :=
  let head := (l.reverse.dropWhile (fun c => c ≠ '/')).reverse
  if head ≠ [] ∧ head.any (fun c => c ≠ '/') then
    (head.reverse.dropWhile (fun c => c = '/')).reverse
  else head

/-- The character class `[A-Za-z0-9_.-]` kept by werkzeug's
`secure_filename`. -/
def allowedChar (c : Char) : Bool :=
  c.isUpper || c.isLower || c.isDigit || c = '_' || c = '.' || c = '-'

/-- Split on whitespace (the separators of Python's `str.split()`),
keeping empty pieces; `str.split()` itself then discards them. -/
def splitOnWS : List Char → List (List Char)
  | [] => [[]]
  | c :: rest =>
      if c.isWhitespace then [] :: splitOnWS rest
      else
        match splitOnWS rest with
        | [] => [[c]]
        | s :: ss => (c :: s) :: ss

/-- Embeds Python `"_".join(s.split())`. -/
def joinUnderscore (l : List Char) : List Char :=
  List.intercalate ['_'] ((splitOnWS l).filter (fun s => s ≠ []))

/-- Embeds Python `str.strip("._")`: drop leading and trailing dots and
underscores. -/
def stripDU (l : List Char) : List Char :=
  ((l.dropWhile (fun c => c = '.' || c = '_')).reverse.dropWhile
    (fun c => c = '.' || c = '_')).reverse

/-- Embeds werkzeug's `secure_filename` for ASCII input: the path
separator is replaced by a space, whitespace runs are collapsed to single
underscores, every character outside `[A-Za-z0-9_.-]` is dropped, and
leading/trailing dots and underscores are stripped. -/
def secure_filename (l : List Char) : List Char :=
  stripDU ((joinUnderscore (l.map (fun c => if c = '/' then ' ' else c))).filter allowedChar)

/-- Embeds `os.path.join` (POSIX) for two components. -/
def joinPath (a b : List Char) : List Char :=
  if b.head? = some '/' then b
  else if a = [] then b
  else if a.getLast? = some '/' then a ++ b
  else a ++ '/' :: b

/-- Embeds `APIServer._sanitize_path` (server.py lines 172-188): secure
the basename, and when the dirname is non-empty, replace every `..` in it
by `_`, strip leading slashes, and join. -/
def sanitize_path (filename : List Char) : List Char :=
  let base := secure_filename (basenameChars filename)
  let directory := dirnameChars filename
  if directory ≠ [] then
    joinPath ((subDots directory).dropWhile (fun c => c = '/')) base
  else base

/-- The `/`-separated segments of a path (maximal slash-free runs;
adjacent slashes yield empty segments). -/
def splitSlash : List Char → List (List Char)
  | [] => [[]]
  | c :: rest =>
      if c = '/' then [] :: splitSlash rest
      else
        match splitSlash rest with
        | [] => [[c]]
        | s :: ss => (c :: s) :: ss

/-- POSIX path resolution over segments, starting from an accumulated
stack: empty and `.` segments are skipped, `..` pops one segment, any
other segment is pushed. -/
def resolveFrom (acc : List (List Char)) (segs : List (List Char)) : List (List Char) :=
  segs.foldl (fun acc s =>
    if s = [] ∨ s = ['.'] then acc
    else if s = ['.', '.'] then acc.dropLast
    else acc ++ [s]) acc

def resolveSegs (segs : List (List Char)) : List (List Char) :=
  resolveFrom [] segs

/-! ## Theorems -/

theorem sortByKey_eq_self {α : Type} (key : α → Nat) :
    ∀ {l : List α},
      List.Pairwise (fun a b => key a ≤ key b) l → sortByKey key l = l := by
  intro l
  induction l with
  | nil => intro _; rfl
  | cons a rest ih =>
    intro h
    rcases List.pairwise_cons.mp h with ⟨hhead, htail⟩
    show insertByKey key a (sortByKey key rest) = a :: rest
    rw [ih htail]
    cases rest with
    | nil => rfl
    | cons x xs =>
      have hx : key a ≤ key x := hhead x (List.mem_cons_self x xs)
      simp [insertByKey, hx]

theorem foldl_filter_take_eq_drop {α : Type} (key : α → Nat) :
    ∀ (n : Nat) (l : List α),
      List.Pairwise (fun a b => key a ≠ key b) l →
      (l.take n).foldl (fun rs r => rs.filter (fun x => key x ≠ key r)) l = l.drop n := by
  intro n
  induction n with
  | zero => intro l _; simp
  | succ n ih =>
    intro l hl
    cases l with
    | nil => simp
    | cons a rest =>
      rcases List.pairwise_cons.mp hl with ⟨hhead, htail⟩
      rw [List.take_succ_cons, List.foldl_cons, List.drop_succ_cons]
      have h1 : (a :: rest).filter (fun x => key x ≠ key a) = rest := by
        rw [List.filter_cons_of_neg (by simp)]
        rw [List.filter_eq_self]
        intro x hx
        simpa using Ne.symm (hhead x hx)
      rw [h1]
      exact ih rest htail

theorem cleanup_rows_eq_drop (m : Nat) (dOk : String → Bool) (st : StoreState)
    (hts : List.Pairwise (fun a b : IndexRow => a.timestamp ≤ b.timestamp) st.rows)
    (hrid : List.Pairwise (fun a b : IndexRow => a.rid ≠ b.rid) st.rows) :
    (cleanup_old_results m dOk st).rows = st.rows.drop (st.rows.length - m) := by
  by_cases h : m < st.rows.length
  · show (cleanup_old_results m dOk st).rows = _
    simp only [cleanup_old_results, h, if_true]
    rw [show sortByTs st.rows = st.rows from sortByKey_eq_self IndexRow.timestamp hts]
    exact foldl_filter_take_eq_drop IndexRow.rid (st.rows.length - m) st.rows hrid
  · have h0 : st.rows.length - m = 0 := Nat.sub_eq_zero_of_le (Nat.le_of_not_lt h)
    simp [cleanup_old_results, h, h0]

theorem cleanup_nextId_eq (m : Nat) (dOk : String → Bool) (st : StoreState) :
    (cleanup_old_results m dOk st).nextId = st.nextId := by
  by_cases h : m < st.rows.length <;> simp [cleanup_old_results, h]

theorem mkRows_length : ∀ (start : Nat) (is_ : List SaveInput),
    (mkRows start is_).length = is_.length := by
  intro start is_
  induction is_ generalizing start with
  | nil => rfl
  | cons i rest ih => simp [mkRows, ih]

theorem mem_mkRows : ∀ {start : Nat} {is_ : List SaveInput} {r : IndexRow},
    r ∈ mkRows start is_ → start ≤ r.rid ∧ ∃ i ∈ is_, r.timestamp = i.ts := by
  intro start is_
  induction is_ generalizing start with
  | nil => intro r hr; cases hr
  | cons i rest ih =>
    intro r hr
    rcases List.mem_cons.mp hr with h | h
    · subst h
      exact ⟨Nat.le_refl _, i, List.mem_cons_self i rest, rfl⟩
    · rcases ih h with ⟨h1, i₁, hi₁, h2⟩
      exact ⟨Nat.le_of_succ_le h1, i₁, List.mem_cons_of_mem i hi₁, h2⟩

theorem mkRows_pairwise {is_ : List SaveInput}
    (hinc : List.Pairwise (fun a b => a.ts < b.ts) is_) :
    ∀ start, List.Pairwise rowLt (mkRows start is_) := by
  induction is_ with
  | nil => intro _; exact List.Pairwise.nil
  | cons i rest ih =>
    intro start
    rcases List.pairwise_cons.mp hinc with ⟨hhead, htail⟩
    refine List.pairwise_cons.mpr ⟨?_, ih htail (start + 1)⟩
    intro r hr
    rcases mem_mkRows hr with ⟨h1, i₁, hi₁, h2⟩
    constructor
    · show i.ts < r.timestamp
      rw [h2]; exact hhead i₁ hi₁
    · exact Nat.lt_of_lt_of_le (Nat.lt_succ_self start) h1

theorem runSaves_spec (m : Nat) (dOk : String → Bool) :
    ∀ (is_ : List SaveInput) (st : StoreState),
      st.rows.length ≤ m →
      List.Pairwise rowLt (st.rows ++ mkRows st.nextId is_) →
      (runSaves m dOk st is_).rows =
        (st.rows ++ mkRows st.nextId is_).drop (st.rows.length + is_.length - m) := by
  intro is_
  induction is_ with
  | nil =>
    intro st hlen _
    simp [runSaves, mkRows, Nat.sub_eq_zero_of_le hlen]
  | cons i rest ih =>
    intro st hlen hpw
    have hassoc : st.rows ++ mkRows st.nextId (i :: rest)
        = (st.rows ++ [rowOf st.nextId i]) ++ mkRows (st.nextId + 1) rest := by
      simp [mkRows]
    set A := st.rows ++ [rowOf st.nextId i] with hA
    have hApw : List.Pairwise rowLt (A ++ mkRows (st.nextId + 1) rest) := by
      rw [← hassoc]; exact hpw
    have hAlen : A.length = st.rows.length + 1 := by simp [hA]
    have hAonly : List.Pairwise rowLt A :=
      hApw.sublist (List.sublist_append_left A _)
    set st1 := save_result_index m dOk i st with hst1
    have hrows1 : st1.rows = A.drop (A.length - m) :=
      cleanup_rows_eq_drop m dOk
        { rows := A, files := st.files ++ rowFiles (rowOf st.nextId i), nextId := st.nextId + 1 }
        (hAonly.imp (fun h => Nat.le_of_lt h.1))
        (hAonly.imp (fun h => Nat.ne_of_lt h.2))
    have hnext1 : st1.nextId = st.nextId + 1 :=
      cleanup_nextId_eq m dOk
        { rows := A, files := st.files ++ rowFiles (rowOf st.nextId i), nextId := st.nextId + 1 }
    have hlen1 : st1.rows.length ≤ m := by
      rw [hrows1, List.length_drop]; omega
    have hsub : List.Sublist (st1.rows ++ mkRows st1.nextId rest)
        (A ++ mkRows (st.nextId + 1) rest) := by
      rw [hrows1, hnext1]
      exact List.Sublist.append (List.drop_sublist _ _) (List.Sublist.refl _)
    have hpw1 : List.Pairwise rowLt (st1.rows ++ mkRows st1.nextId rest) :=
      hApw.sublist hsub
    have hrun : runSaves m dOk st (i :: rest) = runSaves m dOk st1 rest := rfl
    have hdrop : A.drop (A.length - m) ++ mkRows (st.nextId + 1) rest
        = (A ++ mkRows (st.nextId + 1) rest).drop (A.length - m) :=
      (List.drop_append_of_le_length (by omega)).symm
    rw [hrun, ih st1 hlen1 hpw1, hrows1, hnext1, hdrop, List.drop_drop, hassoc]
    congr 1
    rw [List.length_drop]
    simp only [List.length_cons]
    omega

/-- C1: bounded retention.  For every sequence of `save_result` calls with
strictly increasing timestamps on a store configured with maximum `m`,
after each call (i.e. after each prefix of the sequence, including the
eviction sweep inside the call) the number of rows in the detections index
is at most `m`, and the surviving rows are exactly the `m` most recent by
timestamp — the oldest `count - m` rows of the full save history are the
ones removed — for every file-deletion oracle `dOk`, i.e. even when
deleting any of an evicted row's three files fails. -/
theorem c1_bounded_retention (m : Nat) (dOk : String → Bool) (is_ : List SaveInput)
    (hinc : List.Pairwise (fun a b => a.ts < b.ts) is_) (k : Nat) :
    (runSaves m dOk initStore (is_.take k)).rows.length ≤ m ∧
    (runSaves m dOk initStore (is_.take k)).rows =
      (mkRows 0 (is_.take k)).drop ((is_.take k).length - m) := by
  have hpw : List.Pairwise rowLt (mkRows 0 (is_.take k)) :=
    mkRows_pairwise (hinc.sublist (List.take_sublist k is_)) 0
  have h := runSaves_spec m dOk (is_.take k) initStore (Nat.zero_le m)
    (by simpa [initStore] using hpw)
  have h2 : (runSaves m dOk initStore (is_.take k)).rows
      = (mkRows 0 (is_.take k)).drop ((is_.take k).length - m) := by
    simpa [initStore] using h
  refine ⟨?_, h2⟩
  rw [h2, List.length_drop, mkRows_length]
  omega

theorem c1_bounded_retention_witness :
    List.Pairwise (fun a b : SaveInput => a.ts < b.ts) demoSaves ∧
    ((runSaves 2 (fun _ => false) initStore (demoSaves.take 3)).rows.length ≤ 2 ∧
      (runSaves 2 (fun _ => false) initStore (demoSaves.take 3)).rows =
        (mkRows 0 (demoSaves.take 3)).drop ((demoSaves.take 3).length - 2)) :=
  ⟨by decide, c1_bounded_retention 2 (fun _ => false) demoSaves (by decide) 3⟩

theorem find?_append_of_forall_neg {α : Type} (p : α → Bool) (l2 : List α) :
    ∀ (l1 : List α), (∀ x ∈ l1, p x = false) → (l1 ++ l2).find? p = l2.find? p := by
  intro l1
  induction l1 with
  | nil => intro _; rfl
  | cons a rest ih =>
    intro h
    rw [List.cons_append, List.find?_cons_of_neg _ (by simp [h a (List.mem_cons_self a rest)])]
    exact ih (fun x hx => h x (List.mem_cons_of_mem a hx))

theorem foldMax_cons (c : ℚ) (l : List ℚ) (m : ℚ) :
    foldMax (c :: l) m = foldMax l (if m < c then c else m) := rfl

theorem le_foldMax : ∀ (l : List ℚ) (m : ℚ), m ≤ foldMax l m := by
  intro l
  induction l with
  | nil => intro m; exact le_refl m
  | cons c rest ih =>
    intro m
    rw [foldMax_cons]
    refine le_trans ?_ (ih _)
    by_cases h : m < c
    · simp [h, le_of_lt h]
    · simp [h]

theorem mem_le_foldMax : ∀ (l : List ℚ) (m c : ℚ), c ∈ l → c ≤ foldMax l m := by
  intro l
  induction l with
  | nil => intro m c hc; cases hc
  | cons a rest ih =>
    intro m c hc
    rcases List.mem_cons.mp hc with h | h
    · subst h
      rw [foldMax_cons]
      refine le_trans ?_ (le_foldMax _ _)
      by_cases hm : m < c
      · simp [hm]
      · simp [hm]; exact le_of_not_lt hm
    · rw [foldMax_cons]; exact ih _ c h

theorem foldMax_mem_or : ∀ (l : List ℚ) (m : ℚ), foldMax l m = m ∨ foldMax l m ∈ l := by
  intro l
  induction l with
  | nil => intro m; exact Or.inl rfl
  | cons a rest ih =>
    intro m
    rw [foldMax_cons]
    rcases ih (if m < a then a else m) with h | h
    · by_cases hm : m < a
      · right; rw [h, if_pos hm]; exact List.mem_cons_self a rest
      · left; rw [h, if_neg hm]
    · right; exact List.mem_cons_of_mem a h

theorem max_confidence_eq_foldMax (dets : List Detection) :
    max_confidence dets = foldMax (dets.filterMap Detection.confidence) 0 := by
  suffices h : ∀ (l : List Detection) (m : ℚ),
      l.foldl (fun m d => match d.confidence with
        | some c => if m < c then c else m
        | none => m) m = foldMax (l.filterMap Detection.confidence) m from h dets 0
  intro l
  induction l with
  | nil => intro m; rfl
  | cons d rest ih =>
    intro m
    rw [List.foldl_cons, List.filterMap_cons]
    cases hd : d.confidence with
    | none => simp only [hd]; exact ih m
    | some c => simp only [hd, foldMax_cons]; exact ih _

theorem foldMax_zero_spec (l : List ℚ) (hnn : ∀ c ∈ l, 0 ≤ c) :
    (∀ c ∈ l, c ≤ foldMax l 0) ∧ (l = [] → foldMax l 0 = 0) ∧
      (l ≠ [] → foldMax l 0 ∈ l) := by
  refine ⟨fun c hc => mem_le_foldMax l 0 c hc, fun h => by rw [h]; rfl, ?_⟩
  intro hne
  rcases foldMax_mem_or l 0 with h | h
  · cases l with
    | nil => exact absurd rfl hne
    | cons c0 cs =>
      have h1 : c0 ≤ foldMax (c0 :: cs) 0 :=
        mem_le_foldMax _ 0 c0 (List.mem_cons_self _ _)
      rw [h] at h1
      have h2 : c0 = 0 := le_antisymm h1 (hnn c0 (List.mem_cons_self _ _))
      rw [h, ← h2]
      exact List.mem_cons_self _ _
  · exact h

theorem cleanup_docs_rows (m : Nat) (dOk : String → Bool) (st : DocStore)
    (hts : List.Pairwise (fun a b : DBRow => a.timestamp ≤ b.timestamp) st.rows)
    (hrid : List.Pairwise (fun a b : DBRow => a.rid ≠ b.rid) st.rows) :
    (cleanup_docs m dOk st).rows = st.rows.drop (st.rows.length - m) := by
  by_cases h : m < st.rows.length
  · simp only [cleanup_docs, h, if_true]
    rw [sortByKey_eq_self DBRow.timestamp hts]
    exact foldl_filter_take_eq_drop DBRow.rid (st.rows.length - m) st.rows hrid
  · have h0 : st.rows.length - m = 0 := Nat.sub_eq_zero_of_le (Nat.le_of_not_lt h)
    simp [cleanup_docs, h, h0]

theorem lookupDoc_append_pos (D0 : List (String × ResultData)) (res : String) (rd : ResultData)
    (hD0 : ∀ p ∈ D0, p.1 ≠ res) :
    lookupDoc (D0 ++ [(res, rd)]) res = some rd := by
  rw [lookupDoc, find?_append_of_forall_neg _ _ _ (fun p hp => by simpa using hD0 p hp)]
  rw [List.find?_cons_of_pos _ (by simp)]
  rfl

theorem lookupDoc_filter_append (q : (String × ResultData) → Bool)
    (D0 : List (String × ResultData)) (res : String) (rd : ResultData)
    (hq : q (res, rd) = true) (hD0 : ∀ p ∈ D0, p.1 ≠ res) :
    lookupDoc ((D0 ++ [(res, rd)]).filter q) res = some rd := by
  rw [List.filter_append]
  have h1 : [(res, rd)].filter q = [(res, rd)] := by simp [hq]
  rw [h1]
  exact lookupDoc_append_pos _ _ _ (fun p hp => hD0 p (List.mem_of_mem_filter hp))

theorem cleanup_docs_lookup (m : Nat) (dOk : String → Bool) (st1 : DocStore)
    (res : String) (rd : ResultData) (D0 : List (String × ResultData))
    (hdocs : st1.docs = D0 ++ [(res, rd)])
    (hts1 : List.Pairwise (fun a b : DBRow => a.timestamp ≤ b.timestamp) st1.rows)
    (hD0 : ∀ p ∈ D0, p.1 ≠ res)
    (hold : ∀ r ∈ st1.rows.take (st1.rows.length - m), r.result_path ≠ res) :
    lookupDoc (cleanup_docs m dOk st1).docs res = some rd := by
  by_cases hc : m < st1.rows.length
  · simp only [cleanup_docs, hc, if_true]
    rw [sortByKey_eq_self DBRow.timestamp hts1, hdocs]
    refine lookupDoc_filter_append _ _ _ _ ?_ hD0
    have hany : (st1.rows.take (st1.rows.length - m)).any
        (fun r => r.result_path = res) = false := by
      rw [List.any_eq_false]
      intro r hr
      simpa using hold r hr
    simp [hany]
  · simp only [cleanup_docs, hc, if_false]
    rw [hdocs]
    exact lookupDoc_append_pos _ _ _ hD0

theorem save_then_get (m : Nat) (dOk : String → Bool)
    (srcExists copyOk copy_original : Bool)
    (hguard : (copy_original && srcExists && !copyOk) = false)
    (ts : Nat) (image_path stored ann res : String)
    (dets : List Detection) (st : DocStore)
    (hm : 1 ≤ m)
    (hsorted : List.Pairwise (fun a b : DBRow => a.timestamp ≤ b.timestamp) st.rows)
    (hdist : List.Pairwise (fun a b : DBRow => a.rid ≠ b.rid) st.rows)
    (hid : ∀ r ∈ st.rows, r.rid < st.nextId)
    (hts : ∀ r ∈ st.rows, r.timestamp ≤ ts)
    (hres1 : ∀ r ∈ st.rows, r.result_path ≠ res)
    (hres2 : ∀ p ∈ st.docs, p.1 ≠ res) :
    (save_result m dOk srcExists copyOk copy_original ts image_path stored ann res dets st).1
      = SaveOutcome.ok (mkResultData ts stored ann res dets) ∧
    get_result_by_id true st.nextId
        (save_result m dOk srcExists copyOk copy_original ts image_path stored ann res dets st).2
      = some (mergeRow (rowOfData st.nextId (mkResultData ts stored ann res dets))
          (some (mkResultData ts stored ann res dets))) := by
  have hsave : save_result m dOk srcExists copyOk copy_original ts image_path stored ann res dets st
      = (SaveOutcome.ok (mkResultData ts stored ann res dets),
          cleanup_docs m dOk
            { rows := st.rows ++ [rowOfData st.nextId (mkResultData ts stored ann res dets)],
              docs := st.docs ++ [(res, mkResultData ts stored ann res dets)],
              nextId := st.nextId + 1 }) := by
    simp [save_result, hguard]
  refine ⟨by rw [hsave], ?_⟩
  rw [hsave]
  set rd := mkResultData ts stored ann res dets with hrd
  set newRow := rowOfData st.nextId rd with hnewRow
  set st1 : DocStore :=
    { rows := st.rows ++ [newRow], docs := st.docs ++ [(res, rd)], nextId := st.nextId + 1 }
    with hst1
  have hrows : st1.rows = st.rows ++ [newRow] := by rw [hst1]
  have hdocs : st1.docs = st.docs ++ [(res, rd)] := by rw [hst1]
  have hnewTs : newRow.timestamp = ts := rfl
  have hsorted1 : List.Pairwise (fun a b : DBRow => a.timestamp ≤ b.timestamp) st1.rows := by
    rw [hrows]
    refine List.pairwise_append.mpr ⟨hsorted, List.pairwise_singleton _ _, ?_⟩
    intro a ha b hb
    rw [List.mem_singleton] at hb
    subst hb
    rw [hnewTs]
    exact hts a ha
  have hdist1 : List.Pairwise (fun a b : DBRow => a.rid ≠ b.rid) st1.rows := by
    rw [hrows]
    refine List.pairwise_append.mpr ⟨hdist, List.pairwise_singleton _ _, ?_⟩
    intro a ha b hb
    rw [List.mem_singleton] at hb
    subst hb
    exact Nat.ne_of_lt (hid a ha)
  have hn : st1.rows.length = st.rows.length + 1 := by rw [hrows]; simp
  have hj : st1.rows.length - m ≤ st.rows.length := by omega
  have hfind : (cleanup_docs m dOk st1).rows.find? (fun r => r.rid = st.nextId)
      = some newRow := by
    rw [cleanup_docs_rows m dOk st1 hsorted1 hdist1, hrows,
      List.drop_append_of_le_length (by rw [← hrows]; exact hj)]
    rw [find?_append_of_forall_neg _ _ _ ?_]
    · rw [List.find?_cons_of_pos _ (by simp [hnewRow, rowOfData])]
    · intro x hx
      have hxmem : x ∈ st.rows := List.mem_of_mem_drop hx
      simpa using Nat.ne_of_lt (hid x hxmem)
  have hlookup : lookupDoc (cleanup_docs m dOk st1).docs res = some rd := by
    refine cleanup_docs_lookup m dOk st1 res rd st.docs hdocs hsorted1 hres2 ?_
    intro r hr
    rw [hrows, List.take_append_of_le_length (by rw [← hrows]; exact hj)] at hr
    exact hres1 r (List.mem_of_mem_take hr)
  show get_result_by_id true st.nextId (cleanup_docs m dOk st1) = _
  rw [get_result_by_id, hfind]
  simp only [if_true]
  rw [show newRow.result_path = res from rfl, hlookup]

theorem species_list_mem (dets : List Detection) (s : String) :
    s ∈ species_list dets ↔ ((∃ d ∈ dets, d.class_name = some s) ∧ s ≠ "bird") := by
  rw [species_list, List.mem_filterMap]
  constructor
  · rintro ⟨d, hd, hds⟩
    cases hc : d.class_name with
    | none =>
      simp only [hc] at hds
      exact Option.noConfusion hds
    | some c =>
      simp only [hc] at hds
      by_cases hb : c = "bird"
      · simp [hb] at hds
      · rw [if_pos hb] at hds
        injection hds with h2
        subst h2
        exact ⟨⟨d, hd, hc⟩, hb⟩
  · rintro ⟨⟨d, hd, hc⟩, hs⟩
    refine ⟨d, hd, ?_⟩
    simp only [hc]
    simp [hs]

/-- C7: species derivation.  For every list of detections passed to
`save_result`, the stored `species` field is the comma-join of the
de-duplicated set of class names across detections excluding the generic
placeholder class name `"bird"` (a duplicate-free list whose members are
exactly the non-generic class names occurring in the detections), and
`has_species` is true exactly when that set is non-empty. -/
theorem c7_species_derivation (m : Nat) (dOk : String → Bool) (ts : Nat)
    (image_path stored ann res : String) (dets : List Detection) (st : DocStore) :
    (save_result m dOk true true true ts image_path stored ann res dets st).1
      = SaveOutcome.ok (mkResultData ts stored ann res dets) ∧
    (mkResultData ts stored ann res dets).species
      = String.intercalate ", " (species_list dets).dedup ∧
    (species_list dets).dedup.Nodup ∧
    (∀ s : String, s ∈ (species_list dets).dedup ↔
      ((∃ d ∈ dets, d.class_name = some s) ∧ s ≠ "bird")) ∧
    ((mkResultData ts stored ann res dets).has_species = true ↔
      (∃ s : String, (∃ d ∈ dets, d.class_name = some s) ∧ s ≠ "bird")) := by
  refine ⟨by simp [save_result], rfl, List.nodup_dedup _, ?_, ?_⟩
  · intro s
    rw [List.mem_dedup]
    exact species_list_mem dets s
  · rw [show (mkResultData ts stored ann res dets).has_species
        = decide (0 < (species_list dets).length) from rfl]
    rw [decide_eq_true_eq, List.length_pos]
    constructor
    · intro h
      exact ⟨_, (species_list_mem dets _).mp (List.head_mem h)⟩
    · rintro ⟨s, hs⟩
      exact List.ne_nil_of_mem ((species_list_mem dets s).mpr hs)

/-- C2 counterexample: `save_result`, called on an empty store, assigns the
row the primary-key id `0`, yet the dictionary it returns carries no `"id"`
key at all (`rid = none`), so `save_result` does not return the
store-assigned id. -/
theorem c2_counterexample :
    (save_result 1000 (fun _ => true) true true true 5 "src.jpg" "stored.jpg" "ann.jpg"
        "res.json" demoDets initDocStore).1
      = SaveOutcome.ok (mkResultData 5 "stored.jpg" "ann.jpg" "res.json" demoDets) ∧
    (mkResultData 5 "stored.jpg" "ann.jpg" "res.json" demoDets).rid = none ∧
    ((save_result 1000 (fun _ => true) true true true 5 "src.jpg" "stored.jpg" "ann.jpg"
        "res.json" demoDets initDocStore).2.rows.map DBRow.rid) = [0] :=
  ⟨rfl, rfl, rfl⟩

/-- C2 (amended): round trip through the store.  `save_result` returns the
full result dictionary — which carries no id field — and
`get_result_by_id`, applied to the id the index assigned to that save,
returns a result whose detections equal the input's detections and whose
derived fields `bird_detected` (`0 < len(detections)`), `bird_count`
(`len(detections)`) and `confidence` (the maximum detection confidence,
`0.0` when there are none) are correctly derived. -/
theorem c2_round_trip (m : Nat) (dOk : String → Bool) (ts : Nat)
    (image_path stored ann res : String) (dets : List Detection) (st : DocStore)
    (hm : 1 ≤ m)
    (hsorted : List.Pairwise (fun a b : DBRow => a.timestamp ≤ b.timestamp) st.rows)
    (hdist : List.Pairwise (fun a b : DBRow => a.rid ≠ b.rid) st.rows)
    (hid : ∀ r ∈ st.rows, r.rid < st.nextId)
    (hts : ∀ r ∈ st.rows, r.timestamp ≤ ts)
    (hres1 : ∀ r ∈ st.rows, r.result_path ≠ res)
    (hres2 : ∀ p ∈ st.docs, p.1 ≠ res)
    (hnn : ∀ d ∈ dets, ∀ c : ℚ, d.confidence = some c → 0 ≤ c) :
    (save_result m dOk true true true ts image_path stored ann res dets st).1
      = SaveOutcome.ok (mkResultData ts stored ann res dets) ∧
    (mkResultData ts stored ann res dets).rid = none ∧
    ∃ fr : FetchedResult,
      get_result_by_id true st.nextId
          (save_result m dOk true true true ts image_path stored ann res dets st).2 = some fr ∧
      fr.detections = some dets ∧
      fr.bird_detected = decide (0 < dets.length) ∧
      fr.bird_count = dets.length ∧
      (∀ c ∈ dets.filterMap Detection.confidence, c ≤ fr.confidence) ∧
      (dets.filterMap Detection.confidence = [] → fr.confidence = 0) ∧
      (dets.filterMap Detection.confidence ≠ [] →
        fr.confidence ∈ dets.filterMap Detection.confidence) := by
  have h := save_then_get m dOk true true true rfl ts image_path stored ann res dets st
    hm hsorted hdist hid hts hres1 hres2
  have hnn' : ∀ c ∈ dets.filterMap Detection.confidence, 0 ≤ c := by
    intro c hc
    rcases List.mem_filterMap.mp hc with ⟨d, hd, hdc⟩
    exact hnn d hd c hdc
  have hspec := foldMax_zero_spec (dets.filterMap Detection.confidence) hnn'
  have hcf : (mergeRow (rowOfData st.nextId (mkResultData ts stored ann res dets))
      (some (mkResultData ts stored ann res dets))).confidence
      = foldMax (dets.filterMap Detection.confidence) 0 := max_confidence_eq_foldMax dets
  refine ⟨h.1, rfl, _, h.2, rfl, rfl, rfl, ?_, ?_, ?_⟩
  · intro c hc
    rw [hcf]
    exact hspec.1 c hc
  · intro h0
    rw [hcf]
    exact hspec.2.1 h0
  · intro hne
    rw [hcf]
    exact hspec.2.2 hne

theorem c2_round_trip_witness :
    ((1 : Nat) ≤ 5 ∧ ∀ d ∈ demoDets, ∀ c : ℚ, d.confidence = some c → 0 ≤ c) ∧
    ((save_result 5 (fun _ => true) true true true 9 "w.jpg" "ws.jpg" "wa.jpg" "wr.json"
        demoDets initDocStore).1
      = SaveOutcome.ok (mkResultData 9 "ws.jpg" "wa.jpg" "wr.json" demoDets) ∧
    (mkResultData 9 "ws.jpg" "wa.jpg" "wr.json" demoDets).rid = none ∧
    ∃ fr : FetchedResult,
      get_result_by_id true initDocStore.nextId
          (save_result 5 (fun _ => true) true true true 9 "w.jpg" "ws.jpg" "wa.jpg" "wr.json"
            demoDets initDocStore).2 = some fr ∧
      fr.detections = some demoDets ∧
      fr.bird_detected = decide (0 < demoDets.length) ∧
      fr.bird_count = demoDets.length ∧
      (∀ c ∈ demoDets.filterMap Detection.confidence, c ≤ fr.confidence) ∧
      (demoDets.filterMap Detection.confidence = [] → fr.confidence = 0) ∧
      (demoDets.filterMap Detection.confidence ≠ [] →
        fr.confidence ∈ demoDets.filterMap Detection.confidence)) := by
  have hnn : ∀ d ∈ demoDets, ∀ c : ℚ, d.confidence = some c → 0 ≤ c := by
    intro d hd c hc
    simp only [demoDets] at hd
    rcases List.mem_cons.mp hd with h | h
    · subst h
      simp only [Option.some.injEq] at hc
      rw [← hc]
      norm_num
    rcases List.mem_cons.mp h with h1 | h1
    · subst h1
      simp only [Option.some.injEq] at hc
      rw [← hc]
      norm_num
    · cases h1
  exact ⟨⟨by norm_num, hnn⟩,
    c2_round_trip 5 (fun _ => true) 9 "w.jpg" "ws.jpg" "wa.jpg" "wr.json" demoDets initDocStore
      (by norm_num) (by simp [initDocStore]) (by simp [initDocStore]) (by simp [initDocStore])
      (by simp [initDocStore]) (by simp [initDocStore]) (by simp [initDocStore]) hnn⟩

/-- C5 counterexample: with `copy_original = true`, an existing source image
and a failing copy, `save_result` returns the minimal error dictionary and
leaves the store completely unchanged — the result is not recorded in the
index or in a JSON document, contradicting the claim that a copy failure is
non-fatal and the result is still recorded. -/
theorem c5_counterexample :
    save_result 1000 (fun _ => true) true false true 7 "capture.jpg" "stored.jpg" "ann.jpg"
        "res.json" demoDets initDocStore
      = (SaveOutcome.err 7 "copy failed" "capture.jpg", initDocStore) := rfl

/-- C5 (amended): with `copy_original = true`, when the source image does
not exist, the copy is skipped and the result is still recorded, but with
`image_path` set to the managed stored path rather than the caller-supplied
path; when the copy itself fails (source exists, copy raises), the
exception is caught at the `save_result` boundary, which returns the
minimal error dictionary carrying the caller-supplied `image_path`, and
nothing is recorded — the store is unchanged. -/
theorem c5_copy_failure_semantics (m : Nat) (dOk : String → Bool) (copyOk : Bool) (ts : Nat)
    (image_path stored ann res : String) (dets : List Detection) (st : DocStore)
    (hm : 1 ≤ m)
    (hsorted : List.Pairwise (fun a b : DBRow => a.timestamp ≤ b.timestamp) st.rows)
    (hdist : List.Pairwise (fun a b : DBRow => a.rid ≠ b.rid) st.rows)
    (hid : ∀ r ∈ st.rows, r.rid < st.nextId)
    (hts : ∀ r ∈ st.rows, r.timestamp ≤ ts)
    (hres1 : ∀ r ∈ st.rows, r.result_path ≠ res)
    (hres2 : ∀ p ∈ st.docs, p.1 ≠ res) :
    save_result m dOk true false true ts image_path stored ann res dets st
      = (SaveOutcome.err ts "copy failed" image_path, st) ∧
    (save_result m dOk false copyOk true ts image_path stored ann res dets st).1
      = SaveOutcome.ok (mkResultData ts stored ann res dets) ∧
    (mkResultData ts stored ann res dets).image_path = stored ∧
    ∃ fr : FetchedResult,
      get_result_by_id true st.nextId
          (save_result m dOk false copyOk true ts image_path stored ann res dets st).2
        = some fr ∧
      fr.image_path = stored := by
  have h := save_then_get m dOk false copyOk true rfl ts image_path stored ann res dets st
    hm hsorted hdist hid hts hres1 hres2
  exact ⟨rfl, h.1, rfl, _, h.2, rfl⟩

theorem c5_copy_failure_semantics_witness :
    (1 : Nat) ≤ 5 ∧
    (save_result 5 (fun _ => true) true false true 3 "cap.jpg" "cs.jpg" "ca.jpg" "cr.json"
        demoDets initDocStore
      = (SaveOutcome.err 3 "copy failed" "cap.jpg", initDocStore) ∧
    (save_result 5 (fun _ => true) false true true 3 "cap.jpg" "cs.jpg" "ca.jpg" "cr.json"
        demoDets initDocStore).1
      = SaveOutcome.ok (mkResultData 3 "cs.jpg" "ca.jpg" "cr.json" demoDets) ∧
    (mkResultData 3 "cs.jpg" "ca.jpg" "cr.json" demoDets).image_path = "cs.jpg" ∧
    ∃ fr : FetchedResult,
      get_result_by_id true initDocStore.nextId
          (save_result 5 (fun _ => true) false true true 3 "cap.jpg" "cs.jpg" "ca.jpg" "cr.json"
            demoDets initDocStore).2
        = some fr ∧
      fr.image_path = "cs.jpg") :=
  ⟨by norm_num,
    c5_copy_failure_semantics 5 (fun _ => true) true 3 "cap.jpg" "cs.jpg" "ca.jpg" "cr.json"
      demoDets initDocStore (by norm_num) (by simp [initDocStore]) (by simp [initDocStore])
      (by simp [initDocStore]) (by simp [initDocStore]) (by simp [initDocStore])
      (by simp [initDocStore])⟩

/-- C6 counterexample: `get_recent_results` applies no server-side clamp —
on a store of 150 rows, a caller-supplied limit of 150 returns all 150
results, more than the claimed sane maximum of 100. -/
theorem c6_counterexample :
    wideRows.length = 150 ∧
    (get_recent_results 150 false false wideRows).length = 150 ∧ 100 < 150 :=
  ⟨rfl, rfl, by norm_num⟩

/-- C6 (amended): the storage function `get_recent_results` passes the
caller's limit straight to the SQL `LIMIT` clause without clamping; the
clamp lives in the API route handler `_handle_results`, which resets any
limit outside `(0, 100]` to 20 and therefore never returns more than 100
results, regardless of caller input. -/
theorem c6_handler_clamp (limit offset : Int) (bird_only with_species : Bool)
    (rows : List DBRow) :
    (handle_results limit offset bird_only with_species rows).length ≤ 100 := by
  have key : ∀ (L : List DBRow) (o : Nat) (l : Int), l.toNat ≤ 100 →
      ((L.drop o).take l.toNat).length ≤ 100 := by
    intro L o l hl
    calc ((L.drop o).take l.toNat).length ≤ l.toNat := by simp [List.length_take]
    _ ≤ 100 := hl
  show (((get_recent_results _ _ _ _).drop
      (if offset < 0 then 0 else offset).toNat).take
      (if limit ≤ 0 || 100 < limit then 20 else limit).toNat).length ≤ 100
  refine key _ _ _ ?_
  by_cases h : (limit ≤ 0 || 100 < limit) = true
  · rw [if_pos h]
    norm_num
  · rw [if_neg h]
    simp only [Bool.or_eq_true, decide_eq_true_eq, not_or] at h
    omega

theorem putAll_unbounded : ∀ (xs init : List String),
    putAll ⟨0, init⟩ xs = some ⟨0, init ++ xs⟩ := by
  intro xs
  induction xs with
  | nil => intro init; simp [putAll]
  | cons x rest ih =>
    intro init
    have hput : (⟨0, init⟩ : PyQueue String).put x
        = PutResult.enqueued ⟨0, init ++ [x]⟩ := by
      simp [PyQueue.put]
    simp only [putAll, hput]
    rw [ih (init ++ [x])]
    simp

/-- C8 counterexample: the work queue `DirectoryMonitor` creates is
`Queue()` with Python's default `maxsize = 0`, i.e. unbounded: there is no
bound `B` that the queue length respects across put sequences, so the
queue is not a bounded queue and no put ever blocks. -/
theorem c8_counterexample :
    directory_monitor_queue true = some ⟨0, []⟩ ∧
    ¬ ∃ B : Nat, ∀ (xs : List String) (q2 : PyQueue String),
        putAll ⟨0, []⟩ xs = some q2 → q2.items.length ≤ B := by
  refine ⟨rfl, ?_⟩
  rintro ⟨B, hB⟩
  have h := hB (List.replicate (B + 1) "x") ⟨0, List.replicate (B + 1) "x"⟩
    (by rw [putAll_unbounded]; simp)
  simp at h

/-- C8 (amended): the directory watcher pushes matching paths onto the
queue created as `Queue()`, which is unbounded (`maxsize = 0`); a put on
it never blocks and never drops — it always appends — so every sequence of
puts succeeds and the queue length equals the number of items put, with no
capacity bound. -/
theorem c8_unbounded_queue :
    directory_monitor_queue true = some ⟨0, []⟩ ∧
    directory_monitor_queue false = none ∧
    (∀ (items : List String) (x : String),
      (⟨0, items⟩ : PyQueue String).put x = PutResult.enqueued ⟨0, items ++ [x]⟩) ∧
    (∀ xs : List String, putAll ⟨0, []⟩ xs = some ⟨0, xs⟩) := by
  refine ⟨rfl, rfl, ?_, ?_⟩
  · intro items x
    simp [PyQueue.put]
  · intro xs
    rw [putAll_unbounded]
    simp

/-- C9: when the gateway's `rate_limit` configuration value is absent,
`None` (both modelled by `none`) or `0`, the rate-limit check passes for
every request from every client and leaves the request-count state
untouched — rate limiting is disabled entirely, rather than all requests
being rejected. -/
theorem c9_zero_quota_disabled (counts : String → List ℚ) (ip : String) (now : ℚ) :
    rate_limit_check none counts ip now = (true, counts) ∧
    rate_limit_check (some 0) counts ip now = (true, counts) :=
  ⟨rfl, by simp [rate_limit_check]⟩

/-- C10: store reads never raise.  Each read wraps its database interaction
in try/except: on a raised exception `get_recent_results` and
`search_results` return `[]`, `get_result_by_id` returns `None`, and
`get_stats` returns a dictionary carrying an `"error"` key; on success
`get_result_by_id` is `None` exactly for an unknown id, and `get_stats`
returns the stats dictionary — no read propagates an exception. -/
theorem c10_reads_never_raise :
    (∀ (limit : Int) (b w : Bool) (e : String),
      get_recent_results_guarded limit b w (DBOutcome.raised e) = []) ∧
    (∀ (d : Bool) (i : Nat) (e : String),
      get_result_by_id_guarded d i (DBOutcome.raised e) = none) ∧
    (∀ (d : Bool) (i : Nat) (st : DocStore),
      (get_result_by_id_guarded d i (DBOutcome.ok st) = none ↔
        st.rows.find? (fun r => r.rid = i) = none)) ∧
    (∀ e : String, search_results_guarded (DBOutcome.raised e) = []) ∧
    (∀ e : String, get_stats_guarded (DBOutcome.raised e) = Sum.inr e) ∧
    (∀ s : StatsDict, get_stats_guarded (DBOutcome.ok s) = Sum.inl s) := by
  refine ⟨fun _ _ _ _ => rfl, fun _ _ _ => rfl, ?_, fun _ => rfl, fun _ => rfl, fun _ => rfl⟩
  intro d i st
  show get_result_by_id d i st = none ↔ _
  simp only [get_result_by_id]
  cases h : st.rows.find? (fun r => r.rid = i) with
  | none => simp [h]
  | some row => cases d <;> simp [h]

theorem rate_limit_check_reject (N : Nat) (hN : N ≠ 0) (c : String → List ℚ)
    (ip : String) (t : ℚ)
    (h : N ≤ ((c ip).filter (fun x => t - 60 < x)).length) :
    rate_limit_check (some N) c ip t
      = (false, Function.update c ip ((c ip).filter (fun x => t - 60 < x))) := by
  simp only [rate_limit_check]
  rw [if_neg hN, if_pos h]

theorem rate_limit_check_accept (N : Nat) (hN : N ≠ 0) (c : String → List ℚ)
    (ip : String) (t : ℚ)
    (h : ((c ip).filter (fun x => t - 60 < x)).length < N) :
    rate_limit_check (some N) c ip t
      = (true, Function.update c ip ((c ip).filter (fun x => t - 60 < x) ++ [t])) := by
  simp only [rate_limit_check]
  rw [if_neg hN, if_neg (Nat.not_le.mpr h)]

theorem run_requests_append (rl : Option Nat) :
    ∀ (l1 l2 : List (String × ℚ)) (c0 : String → List ℚ),
      run_requests rl (l1 ++ l2) c0
        = ((run_requests rl l2 (run_requests rl l1 c0).1).1,
           (run_requests rl l1 c0).2 ++ (run_requests rl l2 (run_requests rl l1 c0).1).2) := by
  intro l1
  induction l1 with
  | nil => intro l2 c0; rfl
  | cons a rest ih =>
    intro l2 c0
    show run_requests rl (a :: (rest ++ l2)) c0 = _
    simp only [run_requests]
    rw [ih]
    simp

theorem run_state (N : Nat) (hN : 0 < N) (ip : String) (ts : Nat → ℚ)
    (counts0 : String → List ℚ) (h0 : counts0 ip = []) :
    ∀ k : Nat, (∀ i j : Nat, i ≤ j → j < k → ts j - 60 < ts i) →
      (run_requests (some N) (clientReqs ip ts k) counts0).1 ip
          = (List.range (min k N)).map ts ∧
      (run_requests (some N) (clientReqs ip ts k) counts0).2
          = (List.range k).map (fun i => decide (i < N)) := by
  have hNne : N ≠ 0 := Nat.pos_iff_ne_zero.mp hN
  intro k
  induction k with
  | zero =>
    intro _
    constructor
    · simpa [clientReqs, run_requests] using h0
    · simp [clientReqs, run_requests]
  | succ k ih =>
    intro hwin
    obtain ⟨hstate, houts⟩ := ih (fun i j hij hj => hwin i j hij (Nat.lt_succ_of_lt hj))
    have hreqs : clientReqs ip ts (k + 1) = clientReqs ip ts k ++ [(ip, ts k)] := by
      simp [clientReqs, List.range_succ]
    set ck := (run_requests (some N) (clientReqs ip ts k) counts0).1 with hck
    have hpruned : (ck ip).filter (fun t => ts k - 60 < t)
        = (List.range (min k N)).map ts := by
      rw [hstate, List.filter_eq_self]
      intro x hx
      rcases List.mem_map.mp hx with ⟨i, hi, rfl⟩
      have hik : i < k := lt_of_lt_of_le (List.mem_range.mp hi) (min_le_left k N)
      have h2 := hwin i k (Nat.le_of_lt hik) (Nat.lt_succ_self k)
      simpa using h2
    have hlen : ((ck ip).filter (fun t => ts k - 60 < t)).length = min k N := by
      rw [hpruned]
      simp
    have hsing1 : (run_requests (some N) [(ip, ts k)] ck).1
        = (rate_limit_check (some N) ck ip (ts k)).2 := rfl
    have hsing2 : (run_requests (some N) [(ip, ts k)] ck).2
        = [(rate_limit_check (some N) ck ip (ts k)).1] := rfl
    rw [hreqs, run_requests_append, ← hck, hsing1, hsing2]
    by_cases hkN : N ≤ k
    · have hmin : min k N = N := min_eq_right hkN
      have hcheck := rate_limit_check_reject N hNne ck ip (ts k)
        (by rw [hlen, hmin])
      constructor
      · rw [hcheck]
        show Function.update ck ip _ ip = _
        rw [Function.update_same, hpruned, hmin, min_eq_right (Nat.le_succ_of_le hkN)]
      · rw [hcheck, houts, List.range_succ, List.map_append]
        simp [Nat.not_lt.mpr hkN]
    · have hklt : k < N := Nat.not_le.mp hkN
      have hmin : min k N = k := min_eq_left (Nat.le_of_lt hklt)
      have hcheck := rate_limit_check_accept N hNne ck ip (ts k)
        (by rw [hlen, hmin]; exact hklt)
      constructor
      · rw [hcheck]
        show Function.update ck ip _ ip = _
        rw [Function.update_same, hpruned, hmin, min_eq_left hklt,
          List.range_succ, List.map_append]
        simp
      · rw [hcheck, houts, List.range_succ, List.map_append]
        simp [hklt]

/-- C4: rate limiter window behaviour.  For every client and every
configured positive per-minute quota `N`: the first `N` requests from that
client within one 60-second window pass and the `(N+1)`-th request in the
same window is rejected; the rejected request is answered `429` before any
other handler logic runs, whatever the handler and auth configuration;
once every recorded timestamp of the client is at least 60 seconds old its
requests pass again; and requests from a different client key are
unaffected — the verdict for another key depends only on that key's own
entry, and checking another key leaves this client's entry unchanged. -/
theorem c4_rate_limiter (N : Nat) (ip : String) (ts : Nat → ℚ)
    (counts0 : String → List ℚ)
    (hN : 0 < N)
    (h0 : counts0 ip = [])
    (hwin : ∀ i j : Nat, i ≤ j → j ≤ N → ts j - 60 < ts i) :
    ((run_requests (some N) (clientReqs ip ts (N + 1)) counts0).2
      = (List.range (N + 1)).map (fun i => decide (i < N))) ∧
    (∀ (accessKey apiKey : Option String) (handler : Unit → Resp),
      (auth_required (some N) accessKey
          (run_requests (some N) (clientReqs ip ts N) counts0).1 ip (ts N)
          apiKey handler).1 = ⟨"Rate limit exceeded", 429⟩) ∧
    (∀ (c : String → List ℚ) (t : ℚ), (∀ x ∈ c ip, x ≤ t - 60) →
      (rate_limit_check (some N) c ip t).1 = true) ∧
    (∀ (c c2 : String → List ℚ) (ip2 : String) (t : ℚ), c ip2 = c2 ip2 →
      (rate_limit_check (some N) c ip2 t).1 = (rate_limit_check (some N) c2 ip2 t).1) ∧
    (∀ (c : String → List ℚ) (ip2 : String) (t : ℚ), ip2 ≠ ip →
      (rate_limit_check (some N) c ip2 t).2 ip = c ip) := by
  have hNne : N ≠ 0 := Nat.pos_iff_ne_zero.mp hN
  refine ⟨?_, ?_, ?_, ?_, ?_⟩
  · exact (run_state N hN ip ts counts0 h0 (N + 1)
      (fun i j hij hj => hwin i j hij (Nat.lt_succ_iff.mp hj))).2
  · intro accessKey apiKey handler
    have hstate := (run_state N hN ip ts counts0 h0 N
      (fun i j hij hj => hwin i j hij (Nat.le_of_lt hj))).1
    set cN := (run_requests (some N) (clientReqs ip ts N) counts0).1 with hcN
    have hpruned : (cN ip).filter (fun t => ts N - 60 < t)
        = (List.range (min N N)).map ts := by
      rw [hstate, List.filter_eq_self]
      intro x hx
      rcases List.mem_map.mp hx with ⟨i, hi, rfl⟩
      have hik : i < N := lt_of_lt_of_le (List.mem_range.mp hi) (min_le_left N N)
      have h2 := hwin i N (Nat.le_of_lt hik) (Nat.le_refl N)
      simpa using h2
    have hcheck := rate_limit_check_reject N hNne cN ip (ts N)
      (by rw [hpruned]; simp)
    simp only [auth_required, hcheck]
  · intro c t hc
    have hfilter : (c ip).filter (fun x => t - 60 < x) = [] := by
      rw [List.filter_eq_nil_iff]
      intro x hx
      simp only [decide_eq_true_eq]
      intro hlt
      exact absurd (hc x hx) (not_le.mpr hlt)
    rw [rate_limit_check_accept N hNne c ip t (by rw [hfilter]; simpa using hN)]
  · intro c c2 ip2 t hcc
    by_cases hz : N = 0
    · simp [rate_limit_check, hz]
    · simp only [rate_limit_check, hz, if_false]
      rw [hcc]
      by_cases hle : N ≤ ((c2 ip2).filter (fun x => t - 60 < x)).length
      · rw [if_pos hle, if_pos hle]
      · rw [if_neg hle, if_neg hle]
  · intro c ip2 t hne
    by_cases hz : N = 0
    · simp [rate_limit_check, hz]
    · simp only [rate_limit_check, hz, if_false]
      by_cases hle : N ≤ ((c ip2).filter (fun x => t - 60 < x)).length
      · rw [if_pos hle]
        exact Function.update_noteq (Ne.symm hne) _ c
      · rw [if_neg hle]
        exact Function.update_noteq (Ne.symm hne) _ c

theorem c4_rate_limiter_witness :
    ((0 : Nat) < 2 ∧ (fun _ : String => ([] : List ℚ)) "a" = [] ∧
      (∀ i j : Nat, i ≤ j → j ≤ 2 → ((j : ℚ)) - 60 < ((i : ℚ))) ) ∧
    (((run_requests (some 2) (clientReqs "a" (fun i => (i : ℚ)) (2 + 1))
        (fun _ => [])).2
      = (List.range (2 + 1)).map (fun i => decide (i < 2))) ∧
    (∀ (accessKey apiKey : Option String) (handler : Unit → Resp),
      (auth_required (some 2) accessKey
          (run_requests (some 2) (clientReqs "a" (fun i => (i : ℚ)) 2) (fun _ => [])).1
          "a" ((2 : Nat) : ℚ) apiKey handler).1 = ⟨"Rate limit exceeded", 429⟩) ∧
    (∀ (c : String → List ℚ) (t : ℚ), (∀ x ∈ c "a", x ≤ t - 60) →
      (rate_limit_check (some 2) c "a" t).1 = true) ∧
    (∀ (c c2 : String → List ℚ) (ip2 : String) (t : ℚ), c ip2 = c2 ip2 →
      (rate_limit_check (some 2) c ip2 t).1 = (rate_limit_check (some 2) c2 ip2 t).1) ∧
    (∀ (c : String → List ℚ) (ip2 : String) (t : ℚ), ip2 ≠ "a" →
      (rate_limit_check (some 2) c ip2 t).2 "a" = c "a")) := by
  have hwin : ∀ i j : Nat, i ≤ j → j ≤ 2 → ((j : ℚ)) - 60 < ((i : ℚ)) := by
    intro i j _ hj
    have h1 : (j : ℚ) ≤ 2 := by exact_mod_cast hj
    have h2 : (0 : ℚ) ≤ (i : ℚ) := Nat.cast_nonneg i
    linarith
  exact ⟨⟨by norm_num, rfl, hwin⟩,
    c4_rate_limiter 2 "a" (fun i => (i : ℚ)) (fun _ => []) (by norm_num) rfl hwin⟩

theorem hasDD_cons_true (c : Char) (rest : List Char) (h : hasDD rest = true) :
    hasDD (c :: rest) = true := by
  cases rest with
  | nil => simp [hasDD] at h
  | cons r rs =>
    show ((c = '.' && r = '.') || hasDD (r :: rs)) = true
    rw [h]
    simp

theorem hasDD_cons_ne (a : Char) (x : List Char) (ha : a ≠ '.')
    (hx : hasDD x = false) : hasDD (a :: x) = false := by
  cases x with
  | nil => rfl
  | cons c cs =>
    show ((a = '.' && c = '.') || hasDD (c :: cs)) = false
    rw [hx]
    simp [ha]

theorem hasDD_true_decomp : ∀ l : List Char, hasDD l = true →
    ∃ u v : List Char, l = u ++ '.' :: '.' :: v := by
  intro l
  induction l with
  | nil => intro h; simp [hasDD] at h
  | cons a rest ih =>
    intro h
    cases rest with
    | nil => simp [hasDD] at h
    | cons b rs =>
      rw [show hasDD (a :: b :: rs) = ((a = '.' && b = '.') || hasDD (b :: rs)) from rfl] at h
      simp only [Bool.or_eq_true] at h
      rcases h with h1 | h1
      · simp only [Bool.and_eq_true, decide_eq_true_eq] at h1
        rcases h1 with ⟨ha, hb⟩
        exact ⟨[], rs, by rw [ha, hb]; rfl⟩
      · rcases ih h1 with ⟨u, v, huv⟩
        exact ⟨a :: u, v, by rw [huv]; rfl⟩

theorem hasDD_dd_append : ∀ u v : List Char, hasDD (u ++ '.' :: '.' :: v) = true := by
  intro u v
  induction u with
  | nil => simp [hasDD]
  | cons c u' ih => exact hasDD_cons_true c _ ih

theorem hasDD_of_sub (w z l : List Char) (h : hasDD l = true) :
    hasDD (w ++ l ++ z) = true := by
  rcases hasDD_true_decomp l h with ⟨u, v, rfl⟩
  have heq : w ++ (u ++ '.' :: '.' :: v) ++ z = (w ++ u) ++ '.' :: '.' :: (v ++ z) := by
    simp
  rw [heq]
  exact hasDD_dd_append _ _

theorem subDots_head_ne_dot (b : Char) (rest : List Char) (hb : b ≠ '.') :
    ∃ cs : List Char, subDots (b :: rest) = b :: cs := by
  cases rest with
  | nil => exact ⟨[], rfl⟩
  | cons r rs =>
    have hn : ¬(b = '.' ∧ r = '.') := fun h => hb h.1
    exact ⟨subDots (r :: rs), by
      rw [show subDots (b :: r :: rs)
          = if b = '.' ∧ r = '.' then '_' :: subDots rs else b :: subDots (r :: rs) from rfl]
      rw [if_neg hn]⟩

theorem hasDD_subDots_le : ∀ (n : Nat) (l : List Char), l.length ≤ n →
    hasDD (subDots l) = false := by
  intro n
  induction n with
  | zero =>
    intro l hl
    rw [List.length_eq_zero.mp (Nat.le_zero.mp hl)]
    rfl
  | succ n ih =>
    intro l hl
    cases l with
    | nil => rfl
    | cons a l1 =>
      cases l1 with
      | nil => rfl
      | cons b rest =>
        have hlen : (a :: b :: rest).length = rest.length + 2 := by simp
        have hr : rest.length ≤ n := by omega
        have hbr : (b :: rest).length ≤ n := by simp at hl ⊢; omega
        have hstep : subDots (a :: b :: rest)
            = if a = '.' ∧ b = '.' then '_' :: subDots rest
              else a :: subDots (b :: rest) := rfl
        by_cases hab : a = '.' ∧ b = '.'
        · rw [hstep, if_pos hab]
          exact hasDD_cons_ne '_' _ (by decide) (ih rest hr)
        · rw [hstep, if_neg hab]
          have htail := ih (b :: rest) hbr
          by_cases ha : a = '.'
          · have hb : b ≠ '.' := fun hbe => hab ⟨ha, hbe⟩
            obtain ⟨cs, hcs⟩ := subDots_head_ne_dot b rest hb
            rw [hcs] at htail ⊢
            show ((a = '.' && b = '.') || hasDD (b :: cs)) = false
            rw [htail]
            simp [hb]
          · exact hasDD_cons_ne a _ ha htail

theorem hasDD_subDots (l : List Char) : hasDD (subDots l) = false :=
  hasDD_subDots_le l.length l (Nat.le_refl _)

theorem hasDD_tail (c : Char) (rest : List Char) (h : hasDD (c :: rest) = false) :
    hasDD rest = false := by
  cases rest with
  | nil => rfl
  | cons b rs =>
    rw [show hasDD (c :: b :: rs) = ((c = '.' && b = '.') || hasDD (b :: rs)) from rfl] at h
    simp only [Bool.or_eq_false_iff] at h
    exact h.2

theorem splitSlash_cons (c : Char) (rest : List Char) :
    splitSlash (c :: rest)
      = if c = '/' then [] :: splitSlash rest
        else match splitSlash rest with
          | [] => [[c]]
          | s :: ss => (c :: s) :: ss := rfl

theorem splitSlash_ne_nil : ∀ l : List Char, splitSlash l ≠ [] := by
  intro l
  induction l with
  | nil => simp [splitSlash]
  | cons c rest ih =>
    rw [splitSlash_cons]
    by_cases hc : c = '/'
    · rw [if_pos hc]; simp
    · rw [if_neg hc]
      cases h : splitSlash rest with
      | nil => simp
      | cons s ss => simp

theorem splitSlash_head_shape (l : List Char) : ∃ s ss, splitSlash l = s :: ss := by
  cases h : splitSlash l with
  | nil => exact absurd h (splitSlash_ne_nil l)
  | cons s ss => exact ⟨s, ss, rfl⟩

theorem splitSlash_cons_slash (rest : List Char) :
    splitSlash ('/' :: rest) = [] :: splitSlash rest := by
  rw [splitSlash_cons, if_pos rfl]

theorem splitSlash_cons_ne (c : Char) (rest s : List Char) (ss : List (List Char))
    (hc : c ≠ '/') (h : splitSlash rest = s :: ss) :
    splitSlash (c :: rest) = (c :: s) :: ss := by
  rw [splitSlash_cons, if_neg hc, h]

theorem splitSlash_append (x y : List Char) :
    splitSlash (x ++ '/' :: y) = splitSlash x ++ splitSlash y := by
  induction x with
  | nil => rw [List.nil_append, splitSlash_cons_slash]; rfl
  | cons c x1 ih =>
    by_cases hc : c = '/'
    · subst hc
      rw [List.cons_append, splitSlash_cons_slash, splitSlash_cons_slash, ih]
      rfl
    · obtain ⟨s, ss, hss⟩ := splitSlash_head_shape x1
      have h2 : splitSlash (x1 ++ '/' :: y) = s :: (ss ++ splitSlash y) := by
        rw [ih, hss]
        rfl
      rw [List.cons_append, splitSlash_cons_ne c _ s (ss ++ splitSlash y) hc h2,
        splitSlash_cons_ne c x1 s ss hc hss]
      rfl

theorem splitSlash_no_slash : ∀ y : List Char, (∀ c ∈ y, c ≠ '/') → splitSlash y = [y] := by
  intro y
  induction y with
  | nil => intro _; rfl
  | cons c rest ih =>
    intro h
    have hc : c ≠ '/' := h c (List.mem_cons_self _ _)
    have hrest := ih (fun d hd => h d (List.mem_cons_of_mem c hd))
    rw [splitSlash_cons_ne c rest rest [] hc hrest]

theorem splitSlash_head_tk : ∀ (l s : List Char) (ss : List (List Char)),
    splitSlash l = s :: ss → ∃ t, s ++ t = l := by
  intro l
  induction l with
  | nil =>
    intro s ss h
    rw [show splitSlash [] = [[]] from rfl] at h
    injection h with h1 _
    exact ⟨[], by rw [← h1]; rfl⟩
  | cons c rest ih =>
    intro s ss h
    by_cases hc : c = '/'
    · subst hc
      rw [splitSlash_cons_slash] at h
      injection h with h1 _
      exact ⟨'/' :: rest, by rw [← h1]; rfl⟩
    · obtain ⟨s1, ss1, hss⟩ := splitSlash_head_shape rest
      rw [splitSlash_cons_ne c rest s1 ss1 hc hss] at h
      injection h with h1 _
      rcases ih s1 ss1 hss with ⟨t, ht⟩
      exact ⟨t, by rw [← h1, List.cons_append, ht]⟩

theorem seg_ne_dd : ∀ l : List Char, hasDD l = false →
    ∀ seg ∈ splitSlash l, seg ≠ ['.', '.'] := by
  intro l
  induction l with
  | nil =>
    intro _ seg hseg
    rw [show splitSlash [] = [[]] from rfl] at hseg
    rw [List.mem_singleton.mp hseg]
    simp
  | cons c rest ih =>
    intro h seg hseg
    have htail := hasDD_tail c rest h
    by_cases hc : c = '/'
    · subst hc
      rw [splitSlash_cons_slash] at hseg
      rcases List.mem_cons.mp hseg with h1 | h1
      · rw [h1]; simp
      · exact ih htail seg h1
    · obtain ⟨s1, ss1, hss⟩ := splitSlash_head_shape rest
      rw [splitSlash_cons_ne c rest s1 ss1 hc hss] at hseg
      rcases List.mem_cons.mp hseg with h1 | h1
      · intro hdd
        have hcs : c :: s1 = ['.', '.'] := by rw [← h1, hdd]
        injection hcs with hc1 hs1
        rcases splitSlash_head_tk rest s1 ss1 hss with ⟨t, ht⟩
        rw [hs1] at ht
        have hddc : hasDD (c :: rest) = true := by
          rw [hc1, ← ht]
          show hasDD ('.' :: '.' :: t) = true
          simp [hasDD]
        rw [hddc] at h
        exact Bool.noConfusion h
      · refine ih htail seg ?_
        rw [hss]
        exact List.mem_cons_of_mem s1 h1

theorem dropWhile_head_false {p : Char → Bool} :
    ∀ (l : List Char) (c : Char) (cs : List Char),
      l.dropWhile p = c :: cs → p c = false := by
  intro l
  induction l with
  | nil => intro c cs h; simp [List.dropWhile] at h
  | cons a l1 ih =>
    intro c cs h
    rw [List.dropWhile_cons] at h
    by_cases hp : p a = true
    · rw [if_pos hp] at h
      exact ih c cs h
    · rw [if_neg hp] at h
      injection h with h1 _
      rw [← h1]
      cases hpa : p a with
      | false => rfl
      | true => exact absurd hpa hp

theorem hasDD_dropWhile (p : Char → Bool) (l : List Char) (h : hasDD l = false) :
    hasDD (l.dropWhile p) = false := by
  obtain ⟨w, hw⟩ := List.dropWhile_suffix p (l := l)
  cases hdd : hasDD (l.dropWhile p) with
  | false => rfl
  | true =>
    have h2 := hasDD_of_sub w [] _ hdd
    rw [List.append_nil, hw, h] at h2
    exact Bool.noConfusion h2

theorem mem_stripDU (l : List Char) (x : Char) (h : x ∈ stripDU l) : x ∈ l := by
  have hm : stripDU l
      = ((l.dropWhile (fun c => c = '.' || c = '_')).reverse.dropWhile
          (fun c => c = '.' || c = '_')).reverse := rfl
  rw [hm, List.mem_reverse] at h
  obtain ⟨w, hw⟩ := List.dropWhile_suffix (fun c : Char => c = '.' || c = '_')
    (l := (l.dropWhile (fun c => c = '.' || c = '_')).reverse)
  have h2 : x ∈ (l.dropWhile (fun c => c = '.' || c = '_')).reverse := by
    rw [← hw]
    exact List.mem_append_right w h
  rw [List.mem_reverse] at h2
  obtain ⟨w2, hw2⟩ := List.dropWhile_suffix (fun c : Char => c = '.' || c = '_') (l := l)
  rw [← hw2]
  exact List.mem_append_right w2 h2

theorem stripDU_head (l : List Char) (c : Char) (cs : List Char)
    (h : stripDU l = c :: cs) : (c = '.' || c = '_') = false := by
  have hm : stripDU l
      = ((l.dropWhile (fun c => c = '.' || c = '_')).reverse.dropWhile
          (fun c => c = '.' || c = '_')).reverse := rfl
  rw [hm] at h
  obtain ⟨w, hw⟩ := List.dropWhile_suffix (fun c : Char => c = '.' || c = '_')
    (l := (l.dropWhile (fun c => c = '.' || c = '_')).reverse)
  have h2 := congrArg List.reverse hw
  rw [List.reverse_append, List.reverse_reverse, h] at h2
  exact dropWhile_head_false l c (cs ++ w.reverse) (by rw [← h2]; rfl)

theorem secure_filename_allowed (l : List Char) (x : Char) (h : x ∈ secure_filename l) :
    allowedChar x = true := by
  have hm : secure_filename l
      = stripDU ((joinUnderscore (l.map (fun c => if c = '/' then ' ' else c))).filter
          allowedChar) := rfl
  rw [hm] at h
  exact List.of_mem_filter (mem_stripDU _ x h)

theorem secure_filename_no_slash (l : List Char) : '/' ∉ secure_filename l := by
  intro h
  have h2 := secure_filename_allowed l '/' h
  exact absurd h2 (by decide)

theorem secure_filename_ne_dd (l : List Char) : secure_filename l ≠ ['.', '.'] := by
  intro h
  have h2 := stripDU_head
    ((joinUnderscore (l.map (fun c => if c = '/' then ' ' else c))).filter allowedChar)
    '.' ['.'] h
  exact absurd h2 (by decide)

theorem secure_filename_head (l : List Char) :
    (secure_filename l).head? ≠ some '/' := by
  cases h : (secure_filename l).head? with
  | none => simp
  | some c =>
    intro hc
    injection hc with hc
    subst hc
    exact secure_filename_no_slash l (List.mem_of_mem_head? h)

theorem segs_of_single (b : List Char) (hb : '/' ∉ b) (hdd : b ≠ ['.', '.']) :
    ∀ seg ∈ splitSlash b, seg ≠ ['.', '.'] := by
  intro seg hseg
  rw [splitSlash_no_slash b (fun c hc hce => hb (hce ▸ hc))] at hseg
  rw [List.mem_singleton.mp hseg]
  exact hdd

theorem sanitize_path_facts (filename : List Char) :
    (sanitize_path filename).head? ≠ some '/' ∧
    ∀ seg ∈ splitSlash (sanitize_path filename), seg ≠ ['.', '.'] := by
  have hbslash := secure_filename_no_slash (basenameChars filename)
  have hbdd := secure_filename_ne_dd (basenameChars filename)
  have hbhead := secure_filename_head (basenameChars filename)
  have hsan : sanitize_path filename
      = if dirnameChars filename ≠ [] then
          joinPath ((subDots (dirnameChars filename)).dropWhile (fun c => c = '/'))
            (secure_filename (basenameChars filename))
        else secure_filename (basenameChars filename) := rfl
  by_cases hdir : dirnameChars filename ≠ []
  · rw [hsan, if_pos hdir]
    set b := secure_filename (basenameChars filename) with hbdef
    set d2 := (subDots (dirnameChars filename)).dropWhile (fun c => c = '/') with hd2
    have hd2dd : hasDD d2 = false :=
      hasDD_dropWhile _ _ (hasDD_subDots (dirnameChars filename))
    have hjoin : joinPath d2 b
        = if d2 = [] then b
          else if d2.getLast? = some '/' then d2 ++ b else d2 ++ '/' :: b := by
      rw [joinPath, if_neg hbhead]
    by_cases hd2nil : d2 = []
    · rw [hjoin, if_pos hd2nil]
      exact ⟨hbhead, segs_of_single b hbslash hbdd⟩
    · have hd2head : ∀ (c : Char) (cs : List Char), d2 = c :: cs → c ≠ '/' := by
        intro c cs hc hce
        have := dropWhile_head_false (subDots (dirnameChars filename)) c cs (by rw [← hd2]; exact hc)
        rw [hce] at this
        exact absurd this (by decide)
      obtain ⟨c0, cs0, hc0⟩ : ∃ c0 cs0, d2 = c0 :: cs0 := by
        cases hx : d2 with
        | nil => exact absurd hx hd2nil
        | cons c0 cs0 => exact ⟨c0, cs0, rfl⟩
      have hheadOk : ∀ x : List Char, (d2 ++ x).head? ≠ some '/' := by
        intro x hx
        rw [hc0] at hx
        injection hx with hx
        exact hd2head c0 cs0 hc0 hx
      by_cases hlast : d2.getLast? = some '/'
      · rw [hjoin, if_neg hd2nil, if_pos hlast]
        refine ⟨hheadOk b, ?_⟩
        have hgl : d2.getLast hd2nil = '/' := by
          have := List.getLast?_eq_getLast d2 hd2nil
          rw [hlast] at this
          injection this with this
          exact this.symm
        have hdecomp : d2 = d2.dropLast ++ ['/'] := by
          conv_lhs => rw [← List.dropLast_append_getLast hd2nil]
          rw [hgl]
        have hdlDD : hasDD d2.dropLast = false := by
          cases hdd2 : hasDD d2.dropLast with
          | false => rfl
          | true =>
            have h2 := hasDD_of_sub [] ['/'] _ hdd2
            rw [List.nil_append, ← hdecomp, hd2dd] at h2
            exact Bool.noConfusion h2
        have happ : d2 ++ b = d2.dropLast ++ '/' :: b := by
          conv_lhs => rw [hdecomp]
          simp
        rw [happ, splitSlash_append]
        intro seg hseg
        rcases List.mem_append.mp hseg with h1 | h1
        · exact seg_ne_dd _ hdlDD seg h1
        · exact segs_of_single b hbslash hbdd seg h1
      · rw [hjoin, if_neg hd2nil, if_neg hlast]
        refine ⟨hheadOk ('/' :: b), ?_⟩
        rw [splitSlash_append]
        intro seg hseg
        rcases List.mem_append.mp hseg with h1 | h1
        · exact seg_ne_dd _ hd2dd seg h1
        · exact segs_of_single b hbslash hbdd seg h1
  · rw [hsan, if_neg hdir]
    exact ⟨hbhead, segs_of_single _ hbslash hbdd⟩

theorem resolveFrom_clean : ∀ (b a : List (List Char)),
    (∀ s ∈ b, s ≠ ['.', '.']) →
    resolveFrom a b = a ++ b.filter (fun s => s ≠ [] && s ≠ ['.']) := by
  intro b
  induction b with
  | nil => intro a _; simp [resolveFrom]
  | cons s rest ih =>
    intro a hb
    have hs := hb s (List.mem_cons_self _ _)
    have hrest := fun x hx => hb x (List.mem_cons_of_mem s hx)
    have hstep : resolveFrom a (s :: rest)
        = resolveFrom (if s = [] ∨ s = ['.'] then a
            else if s = ['.', '.'] then a.dropLast else a ++ [s]) rest := rfl
    rw [hstep]
    by_cases h1 : s = [] ∨ s = ['.']
    · rw [if_pos h1, ih _ hrest]
      have hcond : (decide (s ≠ []) && decide (s ≠ ['.'])) = false := by
        rcases h1 with h1 | h1 <;> simp [h1]
      rw [List.filter_cons, hcond]
      simp
    · rw [if_neg h1]
      rcases not_or.mp h1 with ⟨hA, hB⟩
      rw [if_neg hs, ih _ hrest]
      have hcond : (decide (s ≠ []) && decide (s ≠ ['.'])) = true := by
        simp [hA, hB]
      rw [List.filter_cons, hcond]
      simp

theorem resolveSegs_append (a b : List (List Char)) :
    resolveSegs (a ++ b) = resolveFrom (resolveSegs a) b := by
  simp [resolveSegs, resolveFrom, List.foldl_append]

/-- C3: path-serving safety.  For every caller-supplied filename — in
particular any containing `..` segments or an absolute-path prefix — the
sanitizer returns a relative path (it does not start with `/`) containing
no `..` segment; consequently, for every managed root the image-serving
route searches (images, annotated, uploads, or a date subdirectory of
images/annotated), resolving root-plus-sanitized-path yields the resolved
root extended only by the sanitized path's own segments, so every file the
route can return lies under a managed root and no path outside these roots
is reachable. -/
theorem c3_path_sanitizer (filename : List Char) :
    (sanitize_path filename).head? ≠ some '/' ∧
    (∀ seg ∈ splitSlash (sanitize_path filename), seg ≠ ['.', '.']) ∧
    ∀ root : List Char,
      resolveSegs (splitSlash root ++ splitSlash (sanitize_path filename))
        = resolveSegs (splitSlash root)
          ++ (splitSlash (sanitize_path filename)).filter
              (fun s => s ≠ [] && s ≠ ['.']) := by
  obtain ⟨h1, h2⟩ := sanitize_path_facts filename
  refine ⟨h1, h2, ?_⟩
  intro root
  rw [resolveSegs_append, resolveFrom_clean _ _ h2]

end BirdCam
